import Mathlib

/-!
A verification development for the tabular machine-learning pipeline notebook
(`src/main.ipynb`).  The notebook wires together library primitives: a
train/validation split by a Bernoulli(0.8) row mask, a static partition of
column names into nominal / ordinal / numerical groups, per-group imputation
and encoding/scaling, a linear estimator, an R² scorer, and serialisation of
the fitted pipeline.  The library primitives themselves (imputers, encoders,
scaler, scorer, serialiser) are not part of the repository's sources, so they
are modelled here from the specification's description of their behaviour;
the notebook-level configuration (column groups, split threshold, stage
order) is taken directly from the notebook.
-/

namespace MLPipe

/-- A cell of the tabular data: missing, a categorical string, or a number
(modelled exactly as a rational). -/
inductive Cell : Type
  | missing : Cell
  | str : String → Cell
  | num : ℚ → Cell
deriving DecidableEq

/-- A column is the list of its cells, in row order. -/
abbrev Col := List Cell

/-- A data frame, column-oriented: an association list from column name to
column, as loaded from a delimited file. -/
abbrev DF := List (String × Col)

/-- Look a column up by name (first match, as in a data frame with unique
column labels). -/
def lookupDF : DF → String → Option Col
  | [], _ => none
  | (m, c) :: rest, n => if m = n then some c else lookupDF rest n

/-- Restriction of a data frame to a list of column names, in that order;
names absent from the frame are skipped. -/
def restrict (df : DF) (names : List String) : DF :=
  names.filterMap (fun n => (lookupDF df n).map (fun c => (n, c)))

/-- Modelled from the spec: selecting a list of named columns from a loaded
table (`train_df[nominal + ordinal + numerical]`) fails with a
`ConfigurationError` naming the first absent column, and otherwise returns
the named columns unchanged, in the given order. -/
def selectCols (df : DF) : List String → Except String DF
  | [] => .ok []
  | n :: rest =>
    match lookupDF df n with
    | none => .error n
    | some c =>
      match selectCols df rest with
      | .error e => .error e
      | .ok t => .ok ((n, c) :: t)

/-- Number of rows of a data frame: the length of its first column
(all columns of a well-formed frame have this length). -/
def nRows : DF → ℕ
  | [] => 0
  | (_, c) :: _ => c.length

/-- A well-formed data frame: every column has the common row count. -/
def WFdf (df : DF) : Prop := ∀ p ∈ df, (p.2 : Col).length = nRows df

/-- The cell of column `n` at row `i` (missing when out of range). -/
def cellAt (df : DF) (i : ℕ) (n : String) : Cell :=
  ((lookupDF df n).bind (fun c => c.get? i)).getD Cell.missing

/-- Duplicate removal keeping the first occurrence of each value, so the
result lists values in the order they are first encountered. -/
def dedupF {α : Type} [DecidableEq α] : List α → List α
  | [] => []
  | x :: xs => x :: dedupF (xs.filter (· ≠ x))
termination_by l => l.length
decreasing_by
  simp only [List.length_cons]
  exact Nat.lt_succ_of_le (List.length_filter_le _ _)

/-- The non-missing value carried by a cell, if any. -/
def cellVal : Cell → Option Cell
  | Cell.missing => none
  | c => some c

/-- The numeric value carried by a cell, if any. -/
def cellNum : Cell → Option ℚ
  | Cell.num q => some q
  | _ => none

/-- Modelled from the spec: the most-frequent-value statistic of a
`most_frequent` imputer — among the distinct non-missing values of the fit
column, the first-encountered value of maximal count (none when the column
has no non-missing value). -/
def mostFrequent (c : Col) : Option Cell :=
  let vs := c.filterMap cellVal
  (dedupF vs).foldl
    (fun best v =>
      match best with
      | none => some v
      | some b => if vs.count b < vs.count v then some v else best)
    none

/-- Modelled from the spec: imputation of a categorical cell — a missing
cell is replaced by the fit-time fill statistic, any other cell is kept. -/
def fillCat (f : Option Cell) : Cell → Cell
  | Cell.missing => f.getD Cell.missing
  | c => c

/-- Modelled from the spec: imputation of a numeric cell — a missing (or
non-numeric) cell becomes the fit-time mean, a numeric cell keeps its
value. -/
def fillNum (m : ℚ) (c : Cell) : ℚ := (cellNum c).getD m

/-- Mean of a list of rationals (0 on the empty list). -/
def qMean (l : List ℚ) : ℚ := l.sum / (l.length : ℚ)

/-- Modelled from the spec: the one-hot encoding of a value over the
fit-time vocabulary — one indicator column per vocabulary entry, set to 1
exactly on the entry equal to the value.  A value outside the vocabulary
yields the all-zero row; the encoding never fails. -/
def oneHot (vocab : List Cell) (v : Cell) : List ℚ :=
  vocab.map (fun c => if c = v then 1 else 0)

/-- Modelled from the spec: the ordinal encoding of a value over the
fit-time category list — the integer rank of the value in that list, and
no encoding (an error) for a value outside the list. -/
def ordinalEncodeCell (cats : List Cell) (v : Cell) : Option ℚ :=
  if v ∈ cats then some ((cats.indexOf v : ℕ) : ℚ) else none

/-- Fitted state of the nominal per-column transform: the imputation fill
value and the one-hot vocabulary. -/
structure FittedNom : Type where
  fill : Option Cell
  vocab : List Cell
deriving DecidableEq

/-- Fitted state of the ordinal per-column transform: the imputation fill
value and the category list in first-encounter order. -/
structure FittedOrd : Type where
  fill : Option Cell
  categories : List Cell
deriving DecidableEq

/-- Fitted state of the numerical per-column transform: the imputation fill
mean, and the scaler's mean, variance and scale (standard deviation). -/
structure FittedNum : Type where
  fill : ℚ
  mean : ℚ
  var : ℚ
  scale : ℚ
deriving DecidableEq

/-- Modelled from the spec: fitting the nominal pipeline on one column —
learn the most-frequent fill, impute the fit column, and record the
distinct imputed values in first-encounter order as the vocabulary. -/
def fitNomCol (c : Col) : FittedNom :=
  let f := mostFrequent c
  ⟨f, dedupF (c.map (fillCat f))⟩

/-- Modelled from the spec: fitting the ordinal pipeline on one column —
learn the most-frequent fill, impute the fit column, and record the
distinct imputed values in first-encounter order as the category list. -/
def fitOrdCol (c : Col) : FittedOrd :=
  let f := mostFrequent c
  ⟨f, dedupF (c.map (fillCat f))⟩

/-- Modelled from the spec: fitting the numerical pipeline on one column —
learn the mean of the non-missing values as the fill, impute the fit
column with it, then learn the imputed column's mean, its population
variance, and the standard deviation as the scale. -/
def fitNumCol (c : Col) : FittedNum :=
  let m := qMean (c.filterMap cellNum)
  let filled := c.map (fillNum m)
  let mu := qMean filled
  let v := qMean (filled.map (fun x => (x - mu) ^ 2))
  ⟨m, mu, v, Rat.sqrt v⟩

/-- Modelled from the spec: standardization of a numeric value with the
fit-time statistics — `(x − mean) / scale`, and 0 when the scale is 0 so
that no division by zero occurs. -/
def numTransform (f : FittedNum) (x : ℚ) : ℚ :=
  if f.scale = 0 then 0 else (x - f.mean) / f.scale

/-- The nominal column names, as listed in the notebook. -/
def nominalCols : List String :=
  ["MSZoning", "LotShape", "LandContour", "LotConfig", "Neighborhood",
   "Condition1", "BldgType", "RoofStyle",
   "Foundation", "CentralAir", "SaleType", "SaleCondition"]

/-- The ordinal column names, as listed in the notebook. -/
def ordinalCols : List String :=
  ["LandSlope", "OverallQual", "OverallCond", "YearRemodAdd",
   "ExterQual", "ExterCond", "BsmtQual", "BsmtCond", "BsmtExposure",
   "KitchenQual", "Functional", "GarageCond", "PavedDrive"]

/-- The numerical column names, as listed in the notebook. -/
def numericalCols : List String :=
  ["LotFrontage", "LotArea", "MasVnrArea", "BsmtFinSF1", "BsmtUnfSF",
   "TotalBsmtSF", "1stFlrSF", "2ndFlrSF", "GrLivArea", "GarageArea",
   "OpenPorchSF"]

/-- All feature column names in the order the notebook concatenates the
groups: nominal, then ordinal, then numerical. -/
def featureColumns : List String := nominalCols ++ ordinalCols ++ numericalCols

/-- The train/validation split of the notebook: each row is paired with its
own uniform draw, and the keep mask is the comparison of that draw against
the 0.8 threshold (`msk = np.random.rand(len(train_df)) < 0.8`).  The rows
whose mask matches `keep` are retained, with their draws. -/
def splitPairs {α : Type} (draws : List ℚ) (rows : List α) (keep : Bool) :
    List (ℚ × α) :=
  (draws.zip rows).filter (fun p => decide (p.1 < 4 / 5) == keep)

/-- The retained rows of a split part (`train_df = train_df[msk]` for
`keep = true`, `val_df = train_df[~msk]` for `keep = false`). -/
def splitPart {α : Type} (draws : List ℚ) (rows : List α) (keep : Bool) :
    List α :=
  (splitPairs draws rows keep).map Prod.snd

/-- The fitted preprocessor: the per-column fitted transforms of the three
groups, keyed by column name, in the notebook's group order. -/
structure FittedPre : Type where
  noms : List (String × FittedNom)
  ords : List (String × FittedOrd)
  nums : List (String × FittedNum)
deriving DecidableEq

/-- The full fitted pipeline artifact: the fitted preprocessor plus the
linear estimator's coefficients and intercept. -/
structure FittedPipeline : Type where
  pre : FittedPre
  coef : List ℚ
  intercept : ℚ
deriving DecidableEq

/-- The column of a data frame by name, defaulting to the empty column. -/
def colOf (df : DF) (n : String) : Col := (lookupDF df n).getD []

/-- Fitting the preprocessing pipeline: every per-column transform of every
group is fitted on that column of the training data frame alone. -/
def fitPre (df : DF) : FittedPre :=
  ⟨nominalCols.map (fun n => (n, fitNomCol (colOf df n))),
   ordinalCols.map (fun n => (n, fitOrdCol (colOf df n))),
   numericalCols.map (fun n => (n, fitNumCol (colOf df n)))⟩

/-- Errors surfaced by the fitted pipeline's transform and predict. -/
inductive PErr : Type
  | missingColumn : String → PErr
  | unseenOrdinal : String → PErr
deriving DecidableEq

/-- Collect the results of a fallible computation over a list, propagating
the first error. -/
def collectE {α β ε : Type} : List α → (α → Except ε β) → Except ε (List β)
  | [], _ => .ok []
  | x :: xs, f =>
    match f x with
    | .error e => .error e
    | .ok b =>
      match collectE xs f with
      | .error e => .error e
      | .ok bs => .ok (b :: bs)

/-- The nominal features of one row: each nominal column is imputed with
its fit-time fill and one-hot encoded over its fit-time vocabulary; the
indicator blocks are concatenated. -/
def nomFeatures (P : FittedPre) (g : String → Cell) : List ℚ :=
  (P.noms.map (fun p => oneHot p.2.vocab (fillCat p.2.fill (g p.1)))).flatten

/-- The ordinal features of one row: each ordinal column is imputed with
its fit-time fill and rank-encoded over its fit-time category list,
failing on a category outside that list. -/
def ordFeatures (P : FittedPre) (g : String → Cell) : Except PErr (List ℚ) :=
  collectE P.ords
    (fun p =>
      match ordinalEncodeCell p.2.categories (fillCat p.2.fill (g p.1)) with
      | some q => .ok q
      | none => .error (PErr.unseenOrdinal p.1))

/-- The numerical features of one row: each numerical column is imputed
with its fit-time mean and standardized with its fit-time statistics. -/
def numFeatures (P : FittedPre) (g : String → Cell) : List ℚ :=
  P.nums.map (fun p => numTransform p.2 (fillNum p.2.fill (g p.1)))

/-- Transform one row (given as an assignment of cells to column names)
with the fitted preprocessor: the three groups' features, concatenated in
the order nominal, ordinal, numerical. -/
def transformRow (P : FittedPre) (g : String → Cell) : Except PErr (List ℚ) :=
  match ordFeatures P g with
  | .error e => .error e
  | .ok ordF => .ok (nomFeatures P g ++ ordF ++ numFeatures P g)

/-- Dot product of two feature vectors. -/
def dot (xs ys : List ℚ) : ℚ := (List.zipWith (· * ·) xs ys).sum

/-- Predict one row: the linear estimator applied to the transformed
features. -/
def predictRow (M : FittedPipeline) (g : String → Cell) : Except PErr ℚ :=
  (transformRow M.pre g).map (fun fs => dot M.coef fs + M.intercept)

/-- Predict on a data frame: the configured feature columns are selected by
name (failing when one is absent), every row is transformed with the
fit-time statistics and passed to the estimator. -/
def predictPipe (M : FittedPipeline) (df : DF) : Except PErr (List ℚ) :=
  match selectCols df featureColumns with
  | .error n => .error (PErr.missingColumn n)
  | .ok _ => collectE (List.range (nRows df)) (fun i => predictRow M (cellAt df i))

/-- Sum of squared residuals between labels and predictions. -/
def ssRes (yt yp : List ℚ) : ℚ := ((yt.zip yp).map (fun p => (p.1 - p.2) ^ 2)).sum

/-- Sum of squared deviations of the labels from their mean. -/
def ssTot (yt : List ℚ) : ℚ := (yt.map (fun y => (y - qMean yt) ^ 2)).sum

/-- Modelled from the spec: the scorer's coefficient of determination,
`1 − (sum of squared residuals) / (sum of squared deviations from the mean
of the true labels)`. -/
def r2Score (yt yp : List ℚ) : ℚ := 1 - ssRes yt yp / ssTot yt

/-- The label column of a frame, as rationals (`df['SalePrice']`). -/
def labelsOf (df : DF) : List ℚ := (colOf df "SalePrice").map (fillNum 0)

/-- Score the fitted pipeline on a data frame: R² of its labels against the
pipeline's predictions. -/
def scoreOn (M : FittedPipeline) (df : DF) : Except PErr ℚ :=
  (predictPipe M df).map (fun preds => r2Score (labelsOf df) preds)

/-- The notebook's modelling run: fit the preprocessor on the training
frame, attach the estimator's parameters, score the validation frame and
predict the test frame.  Returns the learned preprocessing statistics, the
validation score and the test predictions. -/
def notebookRun (coef : List ℚ) (icept : ℚ) (trainDf valDf testDf : DF) :
    FittedPre × Except PErr ℚ × Except PErr (List ℚ) :=
  let pre := fitPre trainDf
  let M : FittedPipeline := ⟨pre, coef, icept⟩
  (pre, scoreOn M valDf, predictPipe M testDf)

/-- The first-encounter rank of a value in a column: the number of distinct
values occurring strictly before the value's first occurrence. -/
def encounterRank (l : Col) (v : Cell) : ℕ := ((l.take (l.indexOf v)).toFinset).card

/-- A small concrete data frame with one extra column and all feature
columns present, used to instantiate the theorems. -/
def wDF : DF := ("Id", [Cell.num 0]) :: featureColumns.map (fun n => (n, [Cell.num 1]))

/-- A small concrete fitted pipeline over `wDF`. -/
def wM : FittedPipeline := ⟨fitPre wDF, [1, 2, 3], 7⟩

/-- Modelled from the spec: the tokens of the persisted binary artifact.
The format is implementation-defined; it must be self-describing enough for
`load` to reconstruct the pipeline, which this flat token stream is. -/
inductive Tok : Type
  | tN : ℕ → Tok
  | tQ : ℚ → Tok
  | tS : String → Tok
  | tC : Cell → Tok
  | tB : Bool → Tok
deriving DecidableEq

/-- Serialise one cell. -/
def encCell (c : Cell) : List Tok := [Tok.tC c]

/-- Read back one cell. -/
def decCell : List Tok → Option (Cell × List Tok)
  | Tok.tC c :: ts => some (c, ts)
  | _ => none

/-- Serialise one rational. -/
def encQ (q : ℚ) : List Tok := [Tok.tQ q]

/-- Read back one rational. -/
def decQ : List Tok → Option (ℚ × List Tok)
  | Tok.tQ q :: ts => some (q, ts)
  | _ => none

/-- Serialise one string. -/
def encS (s : String) : List Tok := [Tok.tS s]

/-- Read back one string. -/
def decS : List Tok → Option (String × List Tok)
  | Tok.tS s :: ts => some (s, ts)
  | _ => none

/-- Serialise an optional cell: a presence flag, then the cell if any. -/
def encOptCell : Option Cell → List Tok
  | none => [Tok.tB false]
  | some c => [Tok.tB true, Tok.tC c]

/-- Read back an optional cell. -/
def decOptCell : List Tok → Option (Option Cell × List Tok)
  | Tok.tB false :: ts => some (none, ts)
  | Tok.tB true :: Tok.tC c :: ts => some (some c, ts)
  | _ => none

/-- Serialise a list: its length, then its serialised elements. -/
def encListTok {α : Type} (enc : α → List Tok) (l : List α) : List Tok :=
  Tok.tN l.length :: (l.map enc).flatten

/-- Read back a known number of elements. -/
def decListAux {α : Type} (dec : List Tok → Option (α × List Tok)) :
    ℕ → List Tok → Option (List α × List Tok)
  | 0, ts => some ([], ts)
  | k + 1, ts =>
    match dec ts with
    | none => none
    | some (a, ts1) =>
      match decListAux dec k ts1 with
      | none => none
      | some (as, ts2) => some (a :: as, ts2)

/-- Read back a serialised list: its length, then that many elements. -/
def decListTok {α : Type} (dec : List Tok → Option (α × List Tok)) :
    List Tok → Option (List α × List Tok)
  | Tok.tN k :: ts => decListAux dec k ts
  | _ => none

/-- Serialise one fitted nominal column entry. -/
def encNomE (p : String × FittedNom) : List Tok :=
  encS p.1 ++ encOptCell p.2.fill ++ encListTok encCell p.2.vocab

/-- Read back one fitted nominal column entry. -/
def decNomE (ts : List Tok) : Option ((String × FittedNom) × List Tok) :=
  match decS ts with
  | none => none
  | some (n, ts1) =>
    match decOptCell ts1 with
    | none => none
    | some (f, ts2) =>
      match decListTok decCell ts2 with
      | none => none
      | some (vb, ts3) => some ((n, ⟨f, vb⟩), ts3)

/-- Serialise one fitted ordinal column entry. -/
def encOrdE (p : String × FittedOrd) : List Tok :=
  encS p.1 ++ encOptCell p.2.fill ++ encListTok encCell p.2.categories

/-- Read back one fitted ordinal column entry. -/
def decOrdE (ts : List Tok) : Option ((String × FittedOrd) × List Tok) :=
  match decS ts with
  | none => none
  | some (n, ts1) =>
    match decOptCell ts1 with
    | none => none
    | some (f, ts2) =>
      match decListTok decCell ts2 with
      | none => none
      | some (cs, ts3) => some ((n, ⟨f, cs⟩), ts3)

/-- Serialise one fitted numerical column entry. -/
def encNumE (p : String × FittedNum) : List Tok :=
  encS p.1 ++ encQ p.2.fill ++ encQ p.2.mean ++ encQ p.2.var ++ encQ p.2.scale

/-- Read back one fitted numerical column entry. -/
def decNumE (ts : List Tok) : Option ((String × FittedNum) × List Tok) :=
  match decS ts with
  | none => none
  | some (n, ts1) =>
    match decQ ts1 with
    | none => none
    | some (fl, ts2) =>
      match decQ ts2 with
      | none => none
      | some (mu, ts3) =>
        match decQ ts3 with
        | none => none
        | some (v, ts4) =>
          match decQ ts4 with
          | none => none
          | some (sc, ts5) => some ((n, ⟨fl, mu, v, sc⟩), ts5)

/-- Modelled from the spec: `save` writes a binary artifact capturing all
fitted transforms and the estimator's parameters. -/
def savePipe (M : FittedPipeline) : List Tok :=
  encListTok encNomE M.pre.noms ++ encListTok encOrdE M.pre.ords ++
    encListTok encNumE M.pre.nums ++ encListTok encQ M.coef ++ encQ M.intercept

/-- Modelled from the spec: `load` reads the artifact back and reconstructs
the fitted pipeline, consuming the whole artifact. -/
def loadPipe (ts : List Tok) : Option FittedPipeline :=
  match decListTok decNomE ts with
  | none => none
  | some (noms, ts1) =>
    match decListTok decOrdE ts1 with
    | none => none
    | some (ords, ts2) =>
      match decListTok decNumE ts2 with
      | none => none
      | some (nums, ts3) =>
        match decListTok decQ ts3 with
        | none => none
        | some (coef, ts4) =>
          match decQ ts4 with
          | none => none
          | some (icept, ts5) =>
            if ts5 = [] then some ⟨⟨noms, ords, nums⟩, coef, icept⟩ else none

theorem mem_dedupF {α : Type} [DecidableEq α] :
    ∀ (l : List α) (a : α), a ∈ dedupF l ↔ a ∈ l
  | [], a => by simp [dedupF]
  | x :: xs, a => by
    rw [dedupF]
    by_cases hax : a = x
    · subst hax; simp
    · have ih := mem_dedupF (xs.filter (· ≠ x)) a
      simp only [List.mem_cons, List.mem_filter, decide_eq_true_eq] at ih ⊢
      constructor
      · rintro (h | h)
        · exact absurd h hax
        · exact Or.inr (ih.mp h).1
      · rintro (h | h)
        · exact absurd h hax
        · exact Or.inr (ih.mpr ⟨h, hax⟩)
termination_by l => l.length
decreasing_by
  simp only [List.length_cons]
  exact Nat.lt_succ_of_le (List.length_filter_le _ _)

theorem nodup_dedupF {α : Type} [DecidableEq α] :
    ∀ l : List α, (dedupF l).Nodup
  | [] => by simp [dedupF]
  | x :: xs => by
    rw [dedupF]
    refine List.nodup_cons.mpr ⟨fun hx => ?_, nodup_dedupF (xs.filter (· ≠ x))⟩
    have := (mem_dedupF _ _).mp hx
    simp at this
termination_by l => l.length
decreasing_by
  simp only [List.length_cons]
  exact Nat.lt_succ_of_le (List.length_filter_le _ _)

theorem decCell_enc (c : Cell) (r : List Tok) : decCell (encCell c ++ r) = some (c, r) := rfl

theorem decQ_enc (q : ℚ) (r : List Tok) : decQ (encQ q ++ r) = some (q, r) := rfl

theorem decS_enc (s : String) (r : List Tok) : decS (encS s ++ r) = some (s, r) := rfl

theorem decOptCell_enc (o : Option Cell) (r : List Tok) :
    decOptCell (encOptCell o ++ r) = some (o, r) := by
  cases o <;> rfl

theorem decListAux_enc {α : Type} (dec : List Tok → Option (α × List Tok))
    (enc : α → List Tok) (h : ∀ a r, dec (enc a ++ r) = some (a, r)) :
    ∀ (l : List α) (r : List Tok),
      decListAux dec l.length ((l.map enc).flatten ++ r) = some (l, r) := by
  intro l
  induction l with
  | nil => intro r; simp [decListAux]
  | cons a t ih =>
    intro r
    simp only [List.map_cons, List.flatten_cons, List.length_cons, List.append_assoc,
      decListAux, h a, ih r]

theorem decListTok_enc {α : Type} (dec : List Tok → Option (α × List Tok))
    (enc : α → List Tok) (h : ∀ a r, dec (enc a ++ r) = some (a, r))
    (l : List α) (r : List Tok) :
    decListTok dec (encListTok enc l ++ r) = some (l, r) := by
  simp only [encListTok, List.cons_append, decListTok]
  exact decListAux_enc dec enc h l r

theorem decNomE_enc (p : String × FittedNom) (r : List Tok) :
    decNomE (encNomE p ++ r) = some (p, r) := by
  obtain ⟨n, f, vb⟩ := p
  simp only [encNomE, List.append_assoc, decNomE, decS_enc,
    decOptCell_enc, decListTok_enc decCell encCell decCell_enc]

theorem decOrdE_enc (p : String × FittedOrd) (r : List Tok) :
    decOrdE (encOrdE p ++ r) = some (p, r) := by
  obtain ⟨n, f, cs⟩ := p
  simp only [encOrdE, List.append_assoc, decOrdE, decS_enc,
    decOptCell_enc, decListTok_enc decCell encCell decCell_enc]

theorem decNumE_enc (p : String × FittedNum) (r : List Tok) :
    decNumE (encNumE p ++ r) = some (p, r) := by
  obtain ⟨n, fl, mu, v, sc⟩ := p
  simp only [encNumE, List.append_assoc, decNumE, decS_enc, decQ_enc]

theorem decQ_enc_nil (q : ℚ) : decQ (encQ q) = some (q, []) := rfl

theorem loadPipe_savePipe (M : FittedPipeline) : loadPipe (savePipe M) = some M := by
  obtain ⟨⟨noms, ords, nums⟩, coef, icept⟩ := M
  simp only [savePipe, loadPipe, List.append_assoc,
    decListTok_enc decNomE encNomE decNomE_enc,
    decListTok_enc decOrdE encOrdE decOrdE_enc,
    decListTok_enc decNumE encNumE decNumE_enc,
    decListTok_enc decQ encQ decQ_enc, decQ_enc_nil]
  simp

theorem splitPart_true_append_false_perm {α : Type} (draws : List ℚ) (rows : List α)
    (h : draws.length = rows.length) :
    (splitPart draws rows true ++ splitPart draws rows false).Perm rows := by
  have hcongr :
      splitPairs draws rows false
        = (draws.zip rows).filter (fun p => !(decide (p.1 < 4 / 5) == true)) := by
    unfold splitPairs
    refine List.filter_congr ?_
    intro p _
    cases h45 : decide (p.1 < 4 / 5) <;> rfl
  have hperm :
      (splitPairs draws rows true ++ splitPairs draws rows false).Perm (draws.zip rows) := by
    rw [hcongr]
    exact List.filter_append_perm _ _
  have := hperm.map Prod.snd
  rw [List.map_append] at this
  have hz : (draws.zip rows).map Prod.snd = rows :=
    List.map_snd_zip draws rows (le_of_eq h.symm)
  rw [hz] at this
  exact this

theorem splitPairs_mem_iff {α : Type} (draws : List ℚ) (rows : List α)
    (q : ℚ) (a : α) (hm : (q, a) ∈ draws.zip rows) :
    ((q, a) ∈ splitPairs draws rows true ↔ q < 4 / 5)
      ∧ ¬((q, a) ∈ splitPairs draws rows true ∧ (q, a) ∈ splitPairs draws rows false) := by
  constructor
  · unfold splitPairs
    rw [List.mem_filter]
    constructor
    · intro h
      have := h.2
      simpa using this
    · intro h
      exact ⟨hm, by simpa using h⟩
  · rintro ⟨h1, h2⟩
    unfold splitPairs at h1 h2
    rw [List.mem_filter] at h1 h2
    have e1 := h1.2
    have e2 := h2.2
    simp only [beq_iff_eq] at e1 e2
    rw [e1] at e2
    exact Bool.true_eq_false.mp e2

theorem lookupDF_nil (n : String) : lookupDF [] n = none := rfl

theorem lookupDF_cons (m : String) (c : Col) (rest : DF) (n : String) :
    lookupDF ((m, c) :: rest) n = if m = n then some c else lookupDF rest n := rfl

theorem restrict_nil (df : DF) : restrict df [] = [] := rfl

theorem restrict_cons_none (df : DF) (m : String) (rest : List String)
    (hm : lookupDF df m = none) :
    restrict df (m :: rest) = restrict df rest := by
  unfold restrict
  exact List.filterMap_cons_none (by rw [hm]; rfl)

theorem restrict_cons_some (df : DF) (m : String) (c : Col) (rest : List String)
    (hm : lookupDF df m = some c) :
    restrict df (m :: rest) = (m, c) :: restrict df rest := by
  unfold restrict
  exact List.filterMap_cons_some (by rw [hm]; rfl)

theorem lookupDF_restrict (df : DF) (names : List String) (n : String) :
    lookupDF (restrict df names) n = if n ∈ names then lookupDF df n else none := by
  induction names with
  | nil => simp [restrict_nil, lookupDF_nil]
  | cons m rest ih =>
    cases hm : lookupDF df m with
    | none =>
      rw [restrict_cons_none df m rest hm, ih]
      by_cases hnm : n = m
      · subst hnm
        simp [hm]
      · have hmem : (n ∈ m :: rest) ↔ (n ∈ rest) := by simp [hnm]
        rw [if_congr hmem rfl rfl]
    | some c =>
      rw [restrict_cons_some df m c rest hm, lookupDF_cons]
      by_cases hnm : n = m
      · subst hnm
        simp [hm]
      · have hmn : ¬(m = n) := fun h => hnm h.symm
        rw [if_neg hmn, ih]
        have hmem : (n ∈ m :: rest) ↔ (n ∈ rest) := by simp [hnm]
        rw [if_congr hmem rfl rfl]

theorem selectCols_of_present (df : DF) (names : List String)
    (h : ∀ n ∈ names, (lookupDF df n).isSome = true) :
    selectCols df names = .ok (restrict df names) := by
  induction names with
  | nil => simp [selectCols, restrict]
  | cons n rest ih =>
    have hn := h n (List.mem_cons_self n rest)
    obtain ⟨c, hc⟩ := Option.isSome_iff_exists.mp hn
    have hrest := ih (fun m hm => h m (List.mem_cons_of_mem n hm))
    simp [selectCols, hc, hrest, restrict, List.filterMap_cons]

theorem selectCols_of_missing (df : DF) (names : List String)
    (h : ∃ n ∈ names, lookupDF df n = none) :
    ∃ e, selectCols df names = .error e := by
  induction names with
  | nil => simp at h
  | cons n rest ih =>
    obtain ⟨m, hm, hnone⟩ := h
    rcases List.mem_cons.mp hm with hmn | hmr
    · subst hmn
      exact ⟨m, by simp [selectCols, hnone]⟩
    · cases hc : lookupDF df n with
      | none => exact ⟨n, by simp [selectCols, hc]⟩
      | some c =>
        obtain ⟨e, he⟩ := ih ⟨m, hmr, hnone⟩
        exact ⟨e, by simp [selectCols, hc, he]⟩

theorem toFinset_filter_ne {α : Type} [DecidableEq α] (l : List α) (x : α) :
    (l.filter (· ≠ x)).toFinset = l.toFinset.erase x := by
  ext a
  simp only [List.mem_toFinset, List.mem_filter, Finset.mem_erase, decide_eq_true_eq]
  exact and_comm

theorem card_insert_eq_card_erase_add_one {α : Type} [DecidableEq α]
    (s : Finset α) (x : α) : (insert x s).card = (s.erase x).card + 1 := by
  rw [← Finset.erase_insert_eq_erase]
  exact (Finset.card_erase_add_one (Finset.mem_insert_self x s)).symm

theorem take_indexOf_filter {α : Type} [DecidableEq α] (x v : α) (hvx : v ≠ x) :
    ∀ xs : List α, v ∈ xs →
      (xs.filter (· ≠ x)).take ((xs.filter (· ≠ x)).indexOf v)
        = (xs.take (xs.indexOf v)).filter (· ≠ x) := by
  intro xs
  induction xs with
  | nil => intro h; simp at h
  | cons y t ih =>
    intro hv
    by_cases hyx : y = x
    · subst hyx
      have hvy : y ≠ v := fun h => hvx h.symm
      have hvt : v ∈ t := by
        rcases List.mem_cons.mp hv with h | h
        · exact absurd h.symm hvy
        · exact h
      have hdrop : (y :: t).filter (· ≠ y) = t.filter (· ≠ y) :=
        List.filter_cons_of_neg (by simp)
      have hkeep : ∀ l : List α, (y :: l).filter (· ≠ y) = l.filter (· ≠ y) :=
        fun l => List.filter_cons_of_neg (by simp)
      rw [hdrop, List.indexOf_cons_ne t hvy, List.take_succ_cons, hkeep]
      exact ih hvt
    · have hkeep : ∀ l : List α, (y :: l).filter (· ≠ x) = y :: l.filter (· ≠ x) :=
        fun l => List.filter_cons_of_pos (by simp [hyx])
      by_cases hyv : y = v
      · subst hyv
        rw [hkeep, List.indexOf_cons_self, List.indexOf_cons_self]
        simp
      · have hvy : y ≠ v := hyv
        have hvt : v ∈ t := by
          rcases List.mem_cons.mp hv with h | h
          · exact absurd h.symm hvy
          · exact h
        rw [hkeep, List.indexOf_cons_ne _ hvy, List.indexOf_cons_ne t hvy,
          List.take_succ_cons, List.take_succ_cons, hkeep]
        rw [ih hvt]

theorem indexOf_dedupF {α : Type} [DecidableEq α] :
    ∀ (l : List α) (v : α), v ∈ l →
      (dedupF l).indexOf v = ((l.take (l.indexOf v)).toFinset).card
  | [], v, hv => by simp at hv
  | x :: xs, v, hv => by
    rw [dedupF]
    by_cases hvx : v = x
    · subst hvx
      simp [List.indexOf_cons_self]
    · have hxv : x ≠ v := fun h => hvx h.symm
      have hvxs : v ∈ xs := by
        rcases List.mem_cons.mp hv with h | h
        · exact absurd h hvx
        · exact h
      have hvf : v ∈ xs.filter (· ≠ x) := by
        rw [List.mem_filter]
        exact ⟨hvxs, by simp [hvx]⟩
      have hrec := indexOf_dedupF (xs.filter (· ≠ x)) v hvf
      rw [List.indexOf_cons_ne _ hxv, hrec,
        take_indexOf_filter x v hvx xs hvxs,
        toFinset_filter_ne, List.indexOf_cons_ne xs hxv,
        List.take_succ_cons, List.toFinset_cons,
        card_insert_eq_card_erase_add_one]
termination_by l => l.length
decreasing_by
  simp only [List.length_cons]
  exact Nat.lt_succ_of_le (List.length_filter_le _ _)

theorem collectE_congr {α β ε : Type} (l : List α) (f g : α → Except ε β)
    (h : ∀ x ∈ l, f x = g x) : collectE l f = collectE l g := by
  induction l with
  | nil => rfl
  | cons a t ih =>
    have ha := h a (List.mem_cons_self a t)
    have ht := ih (fun x hx => h x (List.mem_cons_of_mem a hx))
    simp only [collectE, ha, ht]

theorem collectE_error {α β ε : Type} (l : List α) (f : α → Except ε β)
    (x : α) (hx : x ∈ l) (e : ε) (he : f x = .error e) :
    ∃ e2, collectE l f = .error e2 := by
  induction l with
  | nil => simp at hx
  | cons a t ih =>
    cases hfa : f a with
    | error e1 => exact ⟨e1, by simp [collectE, hfa]⟩
    | ok b =>
      rcases List.mem_cons.mp hx with hxa | hxt
      · subst hxa
        rw [he] at hfa
        exact absurd hfa (by simp)
      · obtain ⟨e2, he2⟩ := ih hxt
        exact ⟨e2, by simp [collectE, hfa, he2]⟩

theorem oneHot_length (vocab : List Cell) (v : Cell) :
    (oneHot vocab v).length = vocab.length := by
  simp [oneHot]

theorem oneHot_unseen (vocab : List Cell) (v : Cell) (h : v ∉ vocab) :
    oneHot vocab v = List.replicate vocab.length 0 := by
  induction vocab with
  | nil => rfl
  | cons c rest ih =>
    have hcv : ¬(c = v) := fun hc => h (hc ▸ List.mem_cons_self c rest)
    have hrest : v ∉ rest := fun hr => h (List.mem_cons_of_mem c hr)
    simp only [oneHot, List.map_cons, if_neg hcv, List.length_cons,
      List.replicate_succ]
    exact congrArg (0 :: ·) (ih hrest)

theorem oneHot_count_seen (vocab : List Cell) (v : Cell)
    (hN : vocab.Nodup) (h : v ∈ vocab) : (oneHot vocab v).count 1 = 1 := by
  induction vocab with
  | nil => simp at h
  | cons c rest ih =>
    obtain ⟨hc, hrestN⟩ := List.nodup_cons.mp hN
    by_cases hcv : c = v
    · have hvr : v ∉ rest := hcv ▸ hc
      simp only [oneHot, List.map_cons, if_pos hcv]
      rw [List.count_cons]
      have h0 : oneHot rest v = List.replicate rest.length 0 := oneHot_unseen rest v hvr
      rw [show (rest.map fun d => if d = v then (1 : ℚ) else 0) = oneHot rest v from rfl, h0]
      simp [List.count_replicate]
    · have hvr : v ∈ rest := by
        rcases List.mem_cons.mp h with h1 | h1
        · exact absurd h1.symm hcv
        · exact h1
      simp only [oneHot, List.map_cons, if_neg hcv]
      rw [List.count_cons]
      rw [show (rest.map fun c => if c = v then (1 : ℚ) else 0) = oneHot rest v from rfl]
      simp [ih hrestN hvr]

theorem transformRow_congr (P : FittedPre) (g g' : String → Cell)
    (h : ∀ n, (n ∈ P.noms.map Prod.fst ∨ n ∈ P.ords.map Prod.fst
        ∨ n ∈ P.nums.map Prod.fst) → g n = g' n) :
    transformRow P g = transformRow P g' := by
  have hnom : nomFeatures P g = nomFeatures P g' := by
    unfold nomFeatures
    refine congrArg List.flatten (List.map_congr_left (fun p hp => ?_))
    rw [h p.1 (Or.inl (List.mem_map.mpr ⟨p, hp, rfl⟩))]
  have hord : ordFeatures P g = ordFeatures P g' := by
    unfold ordFeatures
    refine collectE_congr _ _ _ (fun p hp => ?_)
    rw [h p.1 (Or.inr (Or.inl (List.mem_map.mpr ⟨p, hp, rfl⟩)))]
  have hnum : numFeatures P g = numFeatures P g' := by
    unfold numFeatures
    refine List.map_congr_left (fun p hp => ?_)
    rw [h p.1 (Or.inr (Or.inr (List.mem_map.mpr ⟨p, hp, rfl⟩)))]
  unfold transformRow
  simp only [hnom, hord, hnum]

theorem lookupDF_mem (df : DF) (n : String) (c : Col)
    (h : lookupDF df n = some c) : (n, c) ∈ df := by
  induction df with
  | nil => simp [lookupDF_nil] at h
  | cons p rest ih =>
    obtain ⟨m, col⟩ := p
    rw [lookupDF_cons] at h
    by_cases hmn : m = n
    · subst hmn
      rw [if_pos rfl] at h
      injection h with h1
      subst h1
      exact List.mem_cons_self (m, col) rest
    · rw [if_neg hmn] at h
      exact List.mem_cons_of_mem _ (ih h)

theorem nRows_restrict (df : DF) (names : List String) (hne : names ≠ [])
    (hpres : ∀ n ∈ names, (lookupDF df n).isSome = true) (hwf : WFdf df) :
    nRows (restrict df names) = nRows df := by
  cases names with
  | nil => exact absurd rfl hne
  | cons n rest =>
    obtain ⟨c, hc⟩ := Option.isSome_iff_exists.mp (hpres n (List.mem_cons_self n rest))
    rw [restrict_cons_some df n c rest hc]
    have hm : (n, c) ∈ df := lookupDF_mem df n c hc
    exact hwf (n, c) hm

theorem ssRes_self (y : List ℚ) : ssRes y y = 0 := by
  induction y with
  | nil => rfl
  | cons a t ih =>
    have hstep : ssRes (a :: t) (a :: t) = (a - a) ^ 2 + ssRes t t := by
      simp [ssRes, List.zip_cons_cons]
    rw [hstep, ih]
    ring

theorem map_fst_fitPre (df : DF) :
    (fitPre df).noms.map Prod.fst = nominalCols
    ∧ (fitPre df).ords.map Prod.fst = ordinalCols
    ∧ (fitPre df).nums.map Prod.fst = numericalCols := by
  refine ⟨?_, ?_, ?_⟩ <;>
    · simp only [fitPre, List.map_map]
      exact List.map_id _ ▸ List.map_congr_left (fun a _ => rfl)

theorem predictPipe_ok (M : FittedPipeline) (df : DF)
    (h : ∀ n ∈ featureColumns, (lookupDF df n).isSome = true) :
    predictPipe M df
      = collectE (List.range (nRows df)) (fun i => predictRow M (cellAt df i)) := by
  rw [predictPipe, selectCols_of_present df featureColumns h]

/-- C1: the fitted pipeline's learned statistics (imputation fills, one-hot
vocabularies, ordinal category lists, scaling mean/variance/scale) are a
function of the training frame alone: in the notebook's run they equal
`fitPre train`, changing the validation or test frame never changes them,
and the transform applied to any fixed row is likewise unchanged. -/
theorem c1_fit_depends_only_on_training_data (coef : List ℚ) (icept : ℚ)
    (train val1 val2 test1 test2 : DF) (g : String → Cell) :
    (notebookRun coef icept train val1 test1).1 = fitPre train
    ∧ (notebookRun coef icept train val1 test1).1
        = (notebookRun coef icept train val2 test2).1
    ∧ transformRow (notebookRun coef icept train val1 test1).1 g
        = transformRow (notebookRun coef icept train val2 test2).1 g :=
  ⟨rfl, rfl, rfl⟩

/-- C2: loading a saved fitted pipeline reconstructs a pipeline whose
predictions on any fixed input frame are exactly equal to the original
pipeline's predictions on that frame. -/
theorem c2_save_load_preserves_predictions (M : FittedPipeline) (df : DF) :
    ∃ Q, loadPipe (savePipe M) = some Q ∧ predictPipe Q df = predictPipe M df :=
  ⟨M, loadPipe_savePipe M, rfl⟩

/-- C3: after most-frequent imputation, the ordinal encoder maps each value
of the imputed fit column to the integer rank given by the order in which
distinct categories are first encountered in the fit data: the number of
distinct values occurring before the value's first occurrence. -/
theorem c3_ordinal_rank_is_first_encounter_order (c : Col) (v : Cell)
    (hv : v ∈ c.map (fillCat (mostFrequent c))) :
    ordinalEncodeCell (fitOrdCol c).categories v
      = some ((encounterRank (c.map (fillCat (mostFrequent c))) v : ℕ) : ℚ) := by
  have hcats : (fitOrdCol c).categories = dedupF (c.map (fillCat (mostFrequent c))) := rfl
  have hmem : v ∈ (fitOrdCol c).categories := by
    rw [hcats]
    exact (mem_dedupF _ _).mpr hv
  have hidx := indexOf_dedupF (c.map (fillCat (mostFrequent c))) v hv
  rw [ordinalEncodeCell, if_pos hmem, hcats, hidx]
  rfl

theorem c3_witness :
    (Cell.str "a" ∈ ([Cell.str "b", Cell.str "a", Cell.str "b"] : Col).map
        (fillCat (mostFrequent [Cell.str "b", Cell.str "a", Cell.str "b"])))
    ∧ ordinalEncodeCell
        (fitOrdCol [Cell.str "b", Cell.str "a", Cell.str "b"]).categories
        (Cell.str "a")
      = some ((encounterRank (([Cell.str "b", Cell.str "a", Cell.str "b"] : Col).map
          (fillCat (mostFrequent [Cell.str "b", Cell.str "a", Cell.str "b"])))
          (Cell.str "a") : ℕ) : ℚ) :=
  ⟨by decide,
   c3_ordinal_rank_is_first_encounter_order
     [Cell.str "b", Cell.str "a", Cell.str "b"] (Cell.str "a") (by decide)⟩

/-- C4: the nominal transform is total: the one-hot row always has the
vocabulary's width; a value is in the fit vocabulary exactly when it occurs
in the imputed fit column; a seen value yields exactly one indicator 1;
an unseen value yields the all-zero row and never fails. -/
theorem c4_one_hot_seen_unseen (c : Col) (v : Cell) :
    (oneHot (fitNomCol c).vocab v).length = (fitNomCol c).vocab.length
    ∧ (v ∈ (fitNomCol c).vocab ↔ v ∈ c.map (fillCat (mostFrequent c)))
    ∧ (v ∈ (fitNomCol c).vocab → (oneHot (fitNomCol c).vocab v).count 1 = 1)
    ∧ (v ∉ (fitNomCol c).vocab →
        oneHot (fitNomCol c).vocab v = List.replicate (fitNomCol c).vocab.length 0) := by
  have hvoc : (fitNomCol c).vocab = dedupF (c.map (fillCat (mostFrequent c))) := rfl
  refine ⟨oneHot_length _ _, ?_, ?_, ?_⟩
  · rw [hvoc]
    exact mem_dedupF _ _
  · intro hmem
    refine oneHot_count_seen _ _ ?_ hmem
    rw [hvoc]
    exact nodup_dedupF _
  · intro hmem
    exact oneHot_unseen _ _ hmem

theorem c4_witness :
    (oneHot (fitNomCol [Cell.str "red", Cell.str "blue", Cell.str "red"]).vocab
        (Cell.str "red")).count 1 = 1
    ∧ oneHot (fitNomCol [Cell.str "red", Cell.str "blue", Cell.str "red"]).vocab
        (Cell.str "green")
      = List.replicate (fitNomCol [Cell.str "red", Cell.str "blue", Cell.str "red"]).vocab.length 0 :=
  ⟨(c4_one_hot_seen_unseen [Cell.str "red", Cell.str "blue", Cell.str "red"]
      (Cell.str "red")).2.2.1 ((mem_dedupF _ _).mpr (by decide)),
   (c4_one_hot_seen_unseen [Cell.str "red", Cell.str "blue", Cell.str "red"]
      (Cell.str "green")).2.2.2 (fun h => absurd ((mem_dedupF _ _).mp h) (by decide))⟩

/-- C5: for a numerical column with fit-time mean μ and fit-time standard
deviation σ (the nonnegative number whose square is the fit-time variance):
when σ > 0 every transformed value of an input x is (x − μ)/σ, and when
σ = 0 every transformed value is 0, with no division by zero. -/
theorem c5_standardization_formula (c : Col) (x σ : ℚ) (h0 : 0 ≤ σ)
    (hvar : σ * σ = (fitNumCol c).var) :
    (0 < σ → numTransform (fitNumCol c) x = (x - (fitNumCol c).mean) / σ)
    ∧ (σ = 0 → numTransform (fitNumCol c) x = 0) := by
  have hsc : (fitNumCol c).scale = Rat.sqrt ((fitNumCol c).var) := rfl
  have hscale : (fitNumCol c).scale = σ := by
    rw [hsc, ← hvar, Rat.sqrt_eq, abs_of_nonneg h0]
  constructor
  · intro hpos
    rw [numTransform, if_neg (by rw [hscale]; exact ne_of_gt hpos), hscale]
  · intro hz
    rw [numTransform, if_pos (by rw [hscale, hz])]

theorem c5_witness :
    ((0 : ℚ) ≤ 1) ∧ (1 * 1 = (fitNumCol [Cell.num 1, Cell.num 3]).var)
    ∧ numTransform (fitNumCol [Cell.num 1, Cell.num 3]) 5
        = (5 - (fitNumCol [Cell.num 1, Cell.num 3]).mean) / 1 :=
  ⟨by norm_num, by norm_num [fitNumCol, qMean, cellNum, fillNum],
   (c5_standardization_formula [Cell.num 1, Cell.num 3] 5 1 (by norm_num)
      (by norm_num [fitNumCol, qMean, cellNum, fillNum])).1 (by norm_num)⟩

/-- C6: the train and validation parts of the notebook's split are decided
per row by that row's own draw against the 0.8 threshold, a row is in the
train part exactly when its draw is below the threshold, no row entry is in
both parts, and together the two parts are a permutation of the original
rows. -/
theorem c6_split_partition {α : Type} (draws : List ℚ) (rows : List α)
    (h : draws.length = rows.length) :
    (splitPart draws rows true ++ splitPart draws rows false).Perm rows
    ∧ ∀ (q : ℚ) (a : α), (q, a) ∈ draws.zip rows →
        (((q, a) ∈ splitPairs draws rows true ↔ q < 4 / 5)
         ∧ ¬((q, a) ∈ splitPairs draws rows true
              ∧ (q, a) ∈ splitPairs draws rows false)) :=
  ⟨splitPart_true_append_false_perm draws rows h,
   fun q a hm => splitPairs_mem_iff draws rows q a hm⟩

theorem c6_witness :
    (splitPart [(1 : ℚ)/2, 9/10] ["a", "b"] true
      ++ splitPart [(1 : ℚ)/2, 9/10] ["a", "b"] false).Perm ["a", "b"]
    ∧ (((1 : ℚ)/2, "a") ∈ splitPairs [(1 : ℚ)/2, 9/10] ["a", "b"] true ↔ (1 : ℚ)/2 < 4/5) :=
  ⟨(c6_split_partition [(1 : ℚ)/2, 9/10] ["a", "b"] (by decide)).1,
   ((c6_split_partition [(1 : ℚ)/2, 9/10] ["a", "b"] (by decide)).2
      ((1 : ℚ)/2) "a" (List.mem_cons_self _ _)).1⟩

/-- C7: the scorer computes 1 − SSres/SStot, and on any label vector with
nonzero sum of squared deviations (nonzero variance) the score of perfect
predictions is exactly 1. -/
theorem c7_r2_perfect_prediction (y : List ℚ) (_h : ssTot y ≠ 0) :
    r2Score y y = 1 := by
  rw [r2Score, ssRes_self, zero_div, sub_zero]

theorem c7_witness : ssTot [(0 : ℚ), 1] ≠ 0 ∧ r2Score [(0 : ℚ), 1] [(0 : ℚ), 1] = 1 :=
  ⟨by norm_num [ssTot, qMean], c7_r2_perfect_prediction [(0 : ℚ), 1] (by norm_num [ssTot, qMean])⟩

/-- C8: selecting the configured feature columns from a loaded table
succeeds with exactly those columns, unchanged and in order, when all the
listed names are present, fails with an error naming an absent column when
one is missing, and the three static column groups are pairwise
disjoint. -/
theorem c8_column_selection (df : DF) :
    ((∀ n ∈ featureColumns, (lookupDF df n).isSome = true) →
        selectCols df featureColumns = .ok (restrict df featureColumns))
    ∧ ((∃ n ∈ featureColumns, lookupDF df n = none) →
        ∃ e, selectCols df featureColumns = .error e)
    ∧ ((∀ n ∈ nominalCols, n ∉ ordinalCols ∧ n ∉ numericalCols)
       ∧ (∀ n ∈ ordinalCols, n ∉ numericalCols)) :=
  ⟨selectCols_of_present df featureColumns,
   selectCols_of_missing df featureColumns,
   by decide⟩

theorem c8_witness :
    selectCols wDF featureColumns = .ok (restrict wDF featureColumns)
    ∧ ∃ e, selectCols ([] : DF) featureColumns = .error e :=
  ⟨(c8_column_selection wDF).1 (by decide),
   (c8_column_selection []).2.1 (by decide)⟩

/-- C9: a row whose imputed ordinal cell is a category outside the fitted
category list makes the transform fail with an error instead of producing
an encoding (unlike the nominal transform, which is total). -/
theorem c9_ordinal_unseen_category_errors (P : FittedPre) (g : String → Cell)
    (n : String) (f : FittedOrd) (hmem : (n, f) ∈ P.ords)
    (hunseen : fillCat f.fill (g n) ∉ f.categories) :
    ∃ e, transformRow P g = Except.error e := by
  have herr :
      (match ordinalEncodeCell f.categories (fillCat f.fill (g n)) with
        | some q => (Except.ok q : Except PErr ℚ)
        | none => Except.error (PErr.unseenOrdinal n))
      = Except.error (PErr.unseenOrdinal n) := by
    rw [ordinalEncodeCell, if_neg hunseen]
  obtain ⟨e2, he2⟩ :=
    collectE_error P.ords
      (fun p : String × FittedOrd =>
        match ordinalEncodeCell p.2.categories (fillCat p.2.fill (g p.1)) with
        | some q => (Except.ok q : Except PErr ℚ)
        | none => Except.error (PErr.unseenOrdinal p.1))
      (n, f) hmem (PErr.unseenOrdinal n) herr
  refine ⟨e2, ?_⟩
  have hord : ordFeatures P g = Except.error e2 := he2
  rw [transformRow, hord]

theorem c9_witness :
    ∃ e, transformRow ⟨[], [("LandSlope", ⟨none, [Cell.str "a"]⟩)], []⟩
        (fun _ => Cell.str "z") = Except.error e :=
  c9_ordinal_unseen_category_errors _ _ "LandSlope" ⟨none, [Cell.str "a"]⟩
    (by decide) (by decide)

/-- C10: prediction selects its configured columns by name and ignores all
others: on a well-formed frame containing every feature column, predicting
on the frame restricted to the feature columns gives exactly the same
result as predicting on the full frame. -/
theorem c10_predict_selects_columns_by_name (M : FittedPipeline) (df : DF)
    (hA : M.pre.noms.map Prod.fst = nominalCols
      ∧ M.pre.ords.map Prod.fst = ordinalCols
      ∧ M.pre.nums.map Prod.fst = numericalCols)
    (hwf : WFdf df)
    (hpres : ∀ n ∈ featureColumns, (lookupDF df n).isSome = true) :
    predictPipe M (restrict df featureColumns) = predictPipe M df := by
  have hpres2 : ∀ n ∈ featureColumns,
      (lookupDF (restrict df featureColumns) n).isSome = true := by
    intro n hn
    rw [lookupDF_restrict, if_pos hn]
    exact hpres n hn
  rw [predictPipe_ok M (restrict df featureColumns) hpres2, predictPipe_ok M df hpres,
    nRows_restrict df featureColumns (by decide) hpres hwf]
  refine collectE_congr _ _ _ (fun i _ => ?_)
  have hcells : ∀ n, (n ∈ M.pre.noms.map Prod.fst ∨ n ∈ M.pre.ords.map Prod.fst
      ∨ n ∈ M.pre.nums.map Prod.fst) →
      cellAt (restrict df featureColumns) i n = cellAt df i n := by
    intro n hn
    have hnf : n ∈ featureColumns := by
      rcases hn with h | h | h
      · rw [hA.1] at h
        exact List.mem_append_left _ (List.mem_append_left _ h)
      · rw [hA.2.1] at h
        exact List.mem_append_left _ (List.mem_append_right _ h)
      · rw [hA.2.2] at h
        exact List.mem_append_right _ h
    unfold cellAt
    rw [lookupDF_restrict, if_pos hnf]
  rw [predictRow, predictRow]
  exact congrArg (Except.map (fun fs => dot M.coef fs + M.intercept))
    (transformRow_congr M.pre _ _ hcells)

theorem c10_witness :
    predictPipe wM (restrict wDF featureColumns) = predictPipe wM wDF :=
  c10_predict_selects_columns_by_name wM wDF (map_fst_fitPre wDF)
    (by unfold WFdf; decide) (by decide)

end MLPipe
